import Mathlib

/-!
Verification development for the VecRepV3 embedding pipeline.

Numeric numpy arrays are modelled as lists of rows over the rationals
(idealizing IEEE floats by exact arithmetic).  External numeric routines
that return irrational data (square roots inside np.sqrt, sklearn's l2
normalization, the eigendecomposition np.linalg.eigh, opencv's
matchTemplate denominator) are modelled by explicit oracle parameters;
each claim's theorem carries the faithfulness hypotheses the claim needs.
-/

namespace VecRep

/-- Entry access for a list-of-rows matrix, 0 outside range (numpy indexing
is only used in-range by the code under study). -/
def getE (m : List (List ℚ)) (i j : ℕ) : ℚ := (m.getD i []).getD j 0

/-- Rectangular n by p matrix: n rows, each of length p. -/
def Rect (m : List (List ℚ)) (n p : ℕ) : Prop :=
  m.length = n ∧ ∀ row ∈ m, row.length = p

/-- Transpose of a list-of-rows matrix (numpy .T on a rectangular array). -/
def transposeL (m : List (List ℚ)) : List (List ℚ) :=
  (List.range (m.headD []).length).map (fun j => m.map (fun row => row.getD j 0))

/-- Elementwise closeness test of numpy.allclose: same shape and
abs(x - y) <= atol + rtol * abs(y), with numpy's default rtol = 1e-5. -/
def allcloseL (x y : List (List ℚ)) (atol : ℚ) : Bool :=
  (x.length = y.length : Bool) &&
  (List.zip x y).all (fun rp =>
    (rp.1.length = rp.2.length : Bool) &&
    (List.zip rp.1 rp.2).all (fun p => |p.1 - p.2| ≤ atol + (1/100000) * |p.2|))

/-- Model of check_symmetric in EmbeddingFunctions.py:
np.allclose(a, a.T, atol=1e-05). -/
def check_symmetric (a : List (List ℚ)) (atol : ℚ := 1/100000) : Bool :=
  allcloseL a (transposeL a) atol

/-- Matrix builder: n by p matrix with entry f i j, used to model
elementwise numpy array expressions. -/
def mkMat (n p : ℕ) (f : ℕ → ℕ → ℚ) : List (List ℚ) :=
  (List.range n).map (fun i => (List.range p).map (f i))

/-- Elementwise average of a matrix with its transpose, (G + G.T) / 2,
as computed inside is_valid_matrix_g (numpy broadcasting, modelled
entrywise). -/
def symPart (g : List (List ℚ)) : List (List ℚ) :=
  mkMat g.length (g.headD []).length
    (fun i j => (getE g i j + getE (transposeL g) i j) / 2)

/-- Error taxonomy of the pipeline: ValueError for input-contract
violations, and NonPositiveSemidefiniteError from the extractor.
Exception messages are elided. -/
inductive Err where
  | valueError : Err
  | nonPSD : Err
deriving DecidableEq, Repr

/-- Model of is_valid_matrix_g in EmbeddingFunctions.py: check symmetry
within tolerance, check squareness, symmetrize by (G + G.T)/2, resolve
nDim (None means the matrix dimension) and range-check it.  The
dimension read is len(matrixG[0]), modelled with getD (the code would
raise IndexError on an empty matrix; all claims have size at least 1). -/
def is_valid_matrix_g (matrixG : List (List ℚ)) (nDim : Option ℤ) :
    Except Err (List (List ℚ) × ℤ) :=
  if ¬ check_symmetric matrixG then .error .valueError
  else if ¬ matrixG.all (fun row => row.length = matrixG.length) then .error .valueError
  else
    let g := symPart matrixG
    let maxDim : ℤ := (g.headD []).length
    let n : ℤ := nDim.getD maxDim
    if n ≤ 0 then .error .valueError
    else if n > maxDim then .error .valueError
    else .ok (g, n)

section Lemmas

/-- Width of a rectangular matrix as the code reads it: len(m[0]). -/
theorem headD_length {m : List (List ℚ)} {n p : ℕ} (hm : Rect m n p) (hn : 0 < n) :
    (m.headD []).length = p := by
  obtain ⟨hl, hr⟩ := hm
  cases m with
  | nil => simp at hl; omega
  | cons a t => exact hr a (by simp)

/-- Entry access of a rectangular matrix through getElem. -/
theorem getE_eq_getElem {m : List (List ℚ)} {n p : ℕ} (hm : Rect m n p)
    {i j : ℕ} (hi : i < n) (hj : j < p) :
    ∀ (hi' : i < m.length) (hj' : j < m[i].length), getE m i j = m[i][j] := by
  intro hi' hj'
  unfold getE
  rw [List.getD_eq_getElem _ _ hi', List.getD_eq_getElem _ _ hj']

/-- Two rectangular matrices with the same shape and the same entries are
equal as lists of lists. -/
theorem rect_ext {m₁ m₂ : List (List ℚ)} {n p : ℕ}
    (h₁ : Rect m₁ n p) (h₂ : Rect m₂ n p)
    (h : ∀ i j, i < n → j < p → getE m₁ i j = getE m₂ i j) : m₁ = m₂ := by
  obtain ⟨hl₁, hr₁⟩ := h₁
  obtain ⟨hl₂, hr₂⟩ := h₂
  apply List.ext_getElem (by omega)
  intro i hi₁ hi₂
  have hrow₁ : m₁[i].length = p := hr₁ _ (List.getElem_mem _)
  have hrow₂ : m₂[i].length = p := hr₂ _ (List.getElem_mem _)
  apply List.ext_getElem (by omega)
  intro j hj₁ hj₂
  have hij := h i j (by omega) (by omega)
  rw [getE_eq_getElem ⟨hl₁, hr₁⟩ (by omega) (by omega) hi₁ hj₁,
    getE_eq_getElem ⟨hl₂, hr₂⟩ (by omega) (by omega) hi₂ hj₂] at hij
  exact hij

theorem transposeL_rect {m : List (List ℚ)} {n p : ℕ} (hm : Rect m n p) (hn : 0 < n) :
    Rect (transposeL m) p n := by
  have hhead := headD_length hm hn
  constructor
  · rw [transposeL, List.length_map, List.length_range, hhead]
  · intro row hrow
    rw [transposeL, List.mem_map] at hrow
    obtain ⟨j, _, rfl⟩ := hrow
    rw [List.length_map, hm.1]

theorem getE_transposeL {m : List (List ℚ)} {n p : ℕ} (hm : Rect m n p) (hn : 0 < n)
    {i j : ℕ} (hi : i < p) (hj : j < n) :
    getE (transposeL m) i j = getE m j i := by
  have hhead := headD_length hm hn
  have hlen : i < ((List.range (m.headD []).length).map
      (fun j => m.map (fun row => row.getD j 0))).length := by
    rw [List.length_map, List.length_range, hhead]; omega
  unfold getE transposeL
  rw [List.getD_eq_getElem _ _ hlen]
  rw [List.getElem_map, List.getElem_range]
  rw [List.getD_eq_getElem _ _ (by rw [List.length_map, hm.1]; omega)]
  rw [List.getElem_map]
  rw [List.getD_eq_getElem _ _ (by rw [hm.1]; omega : j < m.length)]

theorem mkMat_rect (n p : ℕ) (f : ℕ → ℕ → ℚ) : Rect (mkMat n p f) n p := by
  constructor
  · rw [mkMat, List.length_map, List.length_range]
  · intro row hrow
    rw [mkMat, List.mem_map] at hrow
    obtain ⟨i, _, rfl⟩ := hrow
    rw [List.length_map, List.length_range]

theorem getE_mkMat {n p : ℕ} (f : ℕ → ℕ → ℚ) {i j : ℕ} (hi : i < n) (hj : j < p) :
    getE (mkMat n p f) i j = f i j := by
  unfold getE mkMat
  simp only [List.getD_eq_getElem?_getD, List.getElem?_map, List.getElem?_range hi,
    List.getElem?_range hj, Option.map_some', Option.getD_some]

theorem symPart_rect {g : List (List ℚ)} {n : ℕ} (hg : Rect g n n) (hn : 0 < n) :
    Rect (symPart g) n n := by
  unfold symPart
  rw [hg.1, headD_length hg hn]
  exact mkMat_rect n n _

theorem getE_symPart {g : List (List ℚ)} {n : ℕ} (hg : Rect g n n) (hn : 0 < n)
    {i j : ℕ} (hi : i < n) (hj : j < n) :
    getE (symPart g) i j = (getE g i j + getE g j i) / 2 := by
  unfold symPart
  rw [getE_mkMat _ (by rw [hg.1]; omega) (by rw [headD_length hg hn]; omega)]
  rw [getE_transposeL hg hn hi hj]

theorem allcloseL_eq_true {x y : List (List ℚ)} {n p : ℕ} {atol : ℚ}
    (hx : Rect x n p) (hy : Rect y n p)
    (h : ∀ i j, i < n → j < p → |getE x i j - getE y i j| ≤ atol + (1/100000) * |getE y i j|) :
    allcloseL x y atol = true := by
  rw [allcloseL]
  rw [Bool.and_eq_true]
  constructor
  · rw [decide_eq_true_iff, hx.1, hy.1]
  · rw [List.all_eq_true]
    intro rp hmem
    rw [List.mem_iff_getElem] at hmem
    obtain ⟨i, hi, hrp⟩ := hmem
    have hi' : i < n := by
      rw [List.length_zip, hx.1, hy.1, Nat.min_self] at hi; exact hi
    have hix : i < x.length := by rw [hx.1]; omega
    have hiy : i < y.length := by rw [hy.1]; omega
    have hxi : x[i] ∈ x := List.getElem_mem _
    have hyi : y[i] ∈ y := List.getElem_mem _
    rw [List.getElem_zip] at hrp
    subst hrp
    rw [Bool.and_eq_true]
    constructor
    · rw [decide_eq_true_iff]
      rw [hx.2 _ hxi, hy.2 _ hyi]
    · rw [List.all_eq_true]
      intro q hq
      rw [List.mem_iff_getElem] at hq
      obtain ⟨j, hj, hqe⟩ := hq
      have hj' : j < p := by
        rw [List.length_zip, hx.2 _ hxi, hy.2 _ hyi, Nat.min_self] at hj; exact hj
      rw [List.getElem_zip] at hqe
      subst hqe
      rw [decide_eq_true_iff]
      have := h i j hi' hj'
      rw [getE_eq_getElem hx hi' hj' _ (by rw [hx.2 _ hxi]; omega),
        getE_eq_getElem hy hi' hj' _ (by rw [hy.2 _ hyi]; omega)] at this
      exact this

theorem check_symmetric_of_tol {g : List (List ℚ)} {n : ℕ} (hg : Rect g n n) (hn : 0 < n)
    {atol : ℚ} (hpos : 0 ≤ atol)
    (h : ∀ i j, i < n → j < n → |getE g i j - getE g j i| ≤ atol) :
    check_symmetric g atol = true := by
  apply allcloseL_eq_true hg (transposeL_rect hg hn)
  intro i j hi hj
  rw [getE_transposeL hg hn hi hj]
  have h0 : 0 ≤ (1/100000 : ℚ) * |getE g j i| := by positivity
  have := h i j hi hj
  linarith

theorem symPart_symm {g : List (List ℚ)} {n : ℕ} (hg : Rect g n n) (hn : 0 < n)
    {i j : ℕ} (hi : i < n) (hj : j < n) :
    getE (symPart g) i j = getE (symPart g) j i := by
  rw [getE_symPart hg hn hi hj, getE_symPart hg hn hj hi]
  ring

theorem symPart_idem {g : List (List ℚ)} {n : ℕ} (hg : Rect g n n) (hn : 0 < n) :
    symPart (symPart g) = symPart g := by
  have hs := symPart_rect hg hn
  apply rect_ext (symPart_rect hs hn) hs
  intro i j hi hj
  rw [getE_symPart hs hn hi hj, symPart_symm hg hn hj hi]
  ring

/-- C5 helper: on a square matrix that is pointwise symmetric within the
absolute tolerance, the validator succeeds and returns the symmetrized
matrix together with the requested rank. -/
theorem is_valid_matrix_g_ok {g : List (List ℚ)} {n : ℕ} {r : ℤ}
    (hg : Rect g n n) (hn : 0 < n)
    (hsym : ∀ i j, i < n → j < n → |getE g i j - getE g j i| ≤ 1/100000)
    (hr : 0 < r) (hrn : r ≤ (n : ℤ)) :
    is_valid_matrix_g g (some r) = .ok (symPart g, r) := by
  have hcheck : check_symmetric g (1/100000) = true :=
    check_symmetric_of_tol hg hn (by norm_num) hsym
  have hsq : g.all (fun row => row.length = g.length) = true := by
    rw [List.all_eq_true]
    intro row hrow
    rw [decide_eq_true_iff, hg.2 _ hrow, hg.1]
  have hdim : ((symPart g).headD []).length = n := headD_length (symPart_rect hg hn) hn
  rw [is_valid_matrix_g]
  rw [if_neg (by rw [hcheck]; exact fun h => h rfl)]
  rw [if_neg (by rw [hsq]; exact fun h => h rfl)]
  simp only [Option.getD_some, hdim]
  rw [if_neg (by omega), if_neg (by omega)]

/-- C5. For every square matrix G that is symmetric within absolute
tolerance 1e-5 and every rank r with 0 < r <= N, is_valid_matrix_g
returns ((G + G.T)/2, r), and applying it again to its own output
returns the same matrix and rank (idempotence). -/
theorem is_valid_matrix_g_symmetrizes_and_idempotent
    {g : List (List ℚ)} {n : ℕ} {r : ℤ}
    (hg : Rect g n n) (hn : 0 < n)
    (hsym : ∀ i j, i < n → j < n → |getE g i j - getE g j i| ≤ 1/100000)
    (hr : 0 < r) (hrn : r ≤ (n : ℤ)) :
    is_valid_matrix_g g (some r) = .ok (symPart g, r) ∧
    is_valid_matrix_g (symPart g) (some r) = .ok (symPart g, r) := by
  refine ⟨is_valid_matrix_g_ok hg hn hsym hr hrn, ?_⟩
  have hs := symPart_rect hg hn
  have : is_valid_matrix_g (symPart g) (some r) = .ok (symPart (symPart g), r) :=
    is_valid_matrix_g_ok hs hn
      (fun i j hi hj => by rw [symPart_symm hg hn hi hj]; simp) hr hrn
  rw [this, symPart_idem hg hn]

/-- C5 witness: the theorem applied to the concrete symmetric matrix
[[1, 1/2], [1/2, 2]] with rank 1. -/
theorem is_valid_matrix_g_symmetrizes_witness :
    is_valid_matrix_g [[1, 1/2], [1/2, 2]] (some 1) =
      .ok (symPart [[1, 1/2], [1/2, 2]], 1) ∧
    is_valid_matrix_g (symPart [[1, 1/2], [1/2, 2]]) (some 1) =
      .ok (symPart [[1, 1/2], [1/2, 2]], 1) :=
  @is_valid_matrix_g_symmetrizes_and_idempotent [[1, 1/2], [1/2, 2]] 2 1
    ⟨by decide, by decide⟩ (by decide)
    (fun i j hi hj => by interval_cases i <;> interval_cases j <;> norm_num [getE])
    (by decide) (by decide)

end Lemmas

/-! Sampling harness: generate_random_sample and the two parameter sweeps
of SamplingMethod.py. -/

/-- Binary image: a 2-D grid of naturals (0/1 entries). -/
abbrev Img := List (List ℕ)

/-- Abstract state of a numpy pseudorandom generator;
np.random.default_rng(seed) is modelled as the state holding that seed. -/
def default_rng (seed : ℕ) : ℕ := seed

/-- Model of generate_random_sample (SamplingMethod.py).  rng.choice is an
unknown deterministic sampling routine passed as the state-passing oracle
choice; ambient models the process-global numpy random state, which a
non-reproducible implementation could read - this function constructs its
own generator from 500 + seed and never touches ambient.  Returns
(testSample, trainingSample), or ValueError when the requested sizes
exceed the image set. -/
def generate_random_sample (choice : ℕ → List Img → ℕ → List Img × ℕ)
    (imageSet : List Img) (testSampleSize trainingSampleSize seed : ℕ)
    (ambient : ℕ) : Except Err (List Img × List Img) :=
  if imageSet.length < testSampleSize + trainingSampleSize then .error .valueError
  else
    let rng := default_rng (500 + seed)
    let tr := choice rng imageSet trainingSampleSize
    let remaining := imageSet.filter (fun image => ! tr.1.contains image)
    let te := choice tr.2 remaining testSampleSize
    .ok (te.1, tr.1)

/-- C9. generate_random_sample is deterministic: its output does not
depend on the ambient process-global random state, and is exactly the
function of (imageSet, sizes, seed) obtained by threading the generator
freshly built from seed 500 + seed through the two rng.choice calls. -/
theorem generate_random_sample_deterministic
    (choice : ℕ → List Img → ℕ → List Img × ℕ) (imageSet : List Img)
    (testSampleSize trainingSampleSize seed ambient₁ ambient₂ : ℕ) :
    generate_random_sample choice imageSet testSampleSize trainingSampleSize seed ambient₁ =
      generate_random_sample choice imageSet testSampleSize trainingSampleSize seed ambient₂ ∧
    generate_random_sample choice imageSet testSampleSize trainingSampleSize seed ambient₁ =
      (if imageSet.length < testSampleSize + trainingSampleSize then .error .valueError
       else .ok ((choice (choice (default_rng (500 + seed)) imageSet trainingSampleSize).2
           (imageSet.filter (fun image =>
             ! (choice (default_rng (500 + seed)) imageSet trainingSampleSize).1.contains image))
           testSampleSize).1,
         (choice (default_rng (500 + seed)) imageSet trainingSampleSize).1)) :=
  ⟨rfl, rfl⟩

/-- Model of Python range(start, stop, step) for a positive step: the
values start, start + step, ... strictly below stop.  The fuel argument
of the helper bounds the recursion; (stop - start).toNat steps suffice
for any step >= 1.  Nonpositive steps (on which Python range either
raises or counts down) do not occur in the sweeps under study and give []. -/
def pythonRangeAux (stop step : ℤ) : ℤ → ℕ → List ℤ
  | _, 0 => []
  | start, fuel + 1 =>
    if start < stop then start :: pythonRangeAux stop step (start + step) fuel else []

/-- Python range(start, stop, step), step >= 1. -/
def pythonRange (start stop step : ℤ) : List ℤ :=
  if step ≤ 0 then [] else pythonRangeAux stop step start (stop - start).toNat

/-- Training-size sweep of investigate_training_size (SamplingMethod.py):
list(range(startingTrainingSize, endingTrainingSize, increment)), a
half-open range. -/
def investigate_training_size_sizes (startingTrainingSize endingTrainingSize increment : ℤ) :
    List ℤ :=
  pythonRange startingTrainingSize endingTrainingSize increment

/-- Rank sweep of investigate_tester_rank_constraint (SamplingMethod.py):
list(range(startingConstr, endingConstr + 1, increment)), with the
endpoint inside the range bound. -/
def investigate_tester_rank_constraint_ranks (startingConstr endingConstr increment : ℤ) :
    List ℤ :=
  pythonRange startingConstr (endingConstr + 1) increment

theorem mem_pythonRangeAux_lt {stop step x : ℤ} :
    ∀ {fuel : ℕ} {start : ℤ}, x ∈ pythonRangeAux stop step start fuel → x < stop := by
  intro fuel
  induction fuel with
  | zero => intro start h; simp [pythonRangeAux] at h
  | succ f ih =>
    intro start h
    rw [pythonRangeAux] at h
    by_cases hc : start < stop
    · rw [if_pos hc] at h
      rcases List.mem_cons.mp h with h | h
      · omega
      · exact ih h
    · rw [if_neg hc] at h
      simp at h

theorem mem_pythonRangeAux_end {stop step : ℤ} (hstep : 1 ≤ step) :
    ∀ (fuel : ℕ) (start : ℤ), (stop - start).toNat ≤ fuel → step ∣ stop - 1 - start →
      start ≤ stop - 1 → (stop - 1) ∈ pythonRangeAux stop step start fuel := by
  intro fuel
  induction fuel with
  | zero => intro start hf hd hs; omega
  | succ f ih =>
    intro start hf hd hs
    rw [pythonRangeAux, if_pos (by omega)]
    rcases eq_or_lt_of_le hs with h | h
    · rw [h]; exact List.mem_cons_self _ _
    · refine List.mem_cons_of_mem _ (ih (start + step) (by omega) ?_ ?_)
      · obtain ⟨c, hc⟩ := hd
        exact ⟨c - 1, by linarith [hc]⟩
      · obtain ⟨c, hc⟩ := hd
        have hc1 : 1 ≤ c := by nlinarith
        nlinarith

/-- C10. The training-size sweep of investigate_training_size never
evaluates endingTrainingSize itself (half-open Python range), for every
positive increment; the rank sweep of investigate_tester_rank_constraint
does include endingConstr: always for the default increment 1, and in
general whenever the increment divides the sweep span. -/
theorem training_sweep_excludes_end_rank_sweep_includes_end
    (s e inc : ℤ) (hinc : 1 ≤ inc) (hse : s < e) :
    e ∉ investigate_training_size_sizes s e inc ∧
    (inc ∣ e - s → e ∈ investigate_tester_rank_constraint_ranks s e inc) ∧
    e ∈ investigate_tester_rank_constraint_ranks s e 1 := by
  refine ⟨?_, ?_, ?_⟩
  · intro hmem
    rw [investigate_training_size_sizes, pythonRange, if_neg (by omega)] at hmem
    exact absurd (mem_pythonRangeAux_lt hmem) (by omega)
  · intro hdvd
    rw [investigate_tester_rank_constraint_ranks, pythonRange, if_neg (by omega)]
    have := @mem_pythonRangeAux_end (e + 1) inc hinc (e + 1 - s).toNat s (le_refl _)
      (by simpa using hdvd) (by omega)
    simpa using this
  · rw [investigate_tester_rank_constraint_ranks, pythonRange, if_neg (by omega)]
    have := @mem_pythonRangeAux_end (e + 1) 1 (le_refl 1) (e + 1 - s).toNat s (le_refl _)
      (by simp) (by omega)
    simpa using this

/-- C10 witness: sweep from 0 to 4 with increment 2 (and default
increment 1 for the rank sweep). -/
theorem training_sweep_excludes_end_witness :
    (1 ≤ (2:ℤ) ∧ (0:ℤ) < 4) ∧
    (4:ℤ) ∉ investigate_training_size_sizes 0 4 2 ∧
    ((2:ℤ) ∣ 4 - 0 → (4:ℤ) ∈ investigate_tester_rank_constraint_ranks 0 4 2) ∧
    (4:ℤ) ∈ investigate_tester_rank_constraint_ranks 0 4 1 :=
  ⟨⟨by decide, by decide⟩,
    training_sweep_excludes_end_rank_sweep_includes_end 0 4 2 (by decide) (by decide)⟩

/-! Embedding-type dispatch of get_embedding_matrix
(EmbeddingFunctions.py).  Each branch is guarded by
re.search(prefix + "[0-9]*[0-9]$", embeddingType); strings are modelled
as lists of characters. -/

/-- Literal string prefix test (character-wise equality). -/
def litPrefix : List Char → List Char → Bool
  | [], _ => true
  | _ :: _, [] => false
  | c :: cs, a :: as => (c = a : Bool) && litPrefix cs as

/-- Nonempty run of decimal digits: the [0-9]*[0-9] part of the branch
patterns. -/
def isDigitRun (cs : List Char) : Bool := !cs.isEmpty && cs.all Char.isDigit

/-- The $-anchored pattern prefix[0-9]*[0-9]$ matches at the current
offset: the rest of the string is the literal prefix followed by a
nonempty digit run reaching the end. -/
def matchHere (pat s : List Char) : Bool :=
  litPrefix pat s && isDigitRun (s.drop pat.length)

/-- Model of re.search for the branch patterns of get_embedding_matrix:
the anchored pattern may match at any offset of the string. -/
def reSearch (pat : List Char) : List Char → Bool
  | [] => matchHere pat []
  | a :: rest => matchHere pat (a :: rest) || reSearch pat rest

/-- Branch dispatch of get_embedding_matrix (EmbeddingFunctions.py),
restricted to the datum this claim is about: the abs_tol argument that
the selected branch passes to get_embeddings_mPCA (1e-5 being the
default of the omitted argument).  none models the ValueError of the
final else branch.  The branch order and patterns follow the source:
pencorr, eigencorr, testcorr, testcorr100, dblcorr. -/
def get_embedding_matrix_absTol (embeddingType : List Char) : Option ℚ :=
  if reSearch ['p','e','n','c','o','r','r','_'] embeddingType then some (1/100000)
  else if reSearch ['e','i','g','e','n','c','o','r','r','_'] embeddingType then some (1/100000)
  else if reSearch ['t','e','s','t','c','o','r','r','_'] embeddingType then some 100
  else if reSearch ['t','e','s','t','c','o','r','r','1','0','0','_'] embeddingType then some 100
  else if reSearch ['d','b','l','c','o','r','r','_'] embeddingType then some (1/100000)
  else none

theorem reSearch_head_mem {c : Char} {pat s : List Char}
    (h : reSearch (c :: pat) s = true) : c ∈ s := by
  induction s with
  | nil => exact absurd h (by simp [reSearch, matchHere, litPrefix])
  | cons a rest ih =>
    rw [reSearch, Bool.or_eq_true] at h
    rcases h with h | h
    · rw [matchHere, Bool.and_eq_true] at h
      have hp := h.1
      rw [litPrefix, Bool.and_eq_true] at hp
      have : c = a := of_decide_eq_true hp.1
      rw [this]
      exact List.mem_cons_self _ _
    · exact List.mem_cons_of_mem _ (ih h)

theorem reSearch_false_of_head_notMem {c : Char} {pat s : List Char}
    (h : c ∉ s) : reSearch (c :: pat) s = false := by
  cases hx : reSearch (c :: pat) s with
  | false => rfl
  | true => exact absurd (reSearch_head_mem hx) h

theorem notMem_of_digitRun {ds : List Char} (hdig : ds.all Char.isDigit = true)
    {c : Char} (hc : c.isDigit = false) : c ∉ ds := by
  intro hmem
  have := List.all_eq_true.mp hdig c hmem
  rw [hc] at this
  exact Bool.false_ne_true this

theorem reSearch_of_matchHere {pat s : List Char} (h : matchHere pat s = true) :
    reSearch pat s = true := by
  cases s with
  | nil => exact h
  | cons a rest => rw [reSearch, h, Bool.true_or]

/-- C2 counterexample: for the shift-based embedding type eigencorr_2 the
extractor is called with the default tolerance 1e-5, which is not 100. -/
theorem get_embedding_matrix_absTol_eigencorr_counterexample :
    get_embedding_matrix_absTol ['e','i','g','e','n','c','o','r','r','_','2'] =
      some (1/100000) ∧ (1/100000 : ℚ) ≠ 100 :=
  ⟨rfl, by norm_num⟩

/-- C2 amended: the looser PSD tolerance 100 is passed for the testcorr
and testcorr100 embedding types, while the shift-based types eigencorr
and dblcorr leave the extractor at its default absolute tolerance 1e-5
(for every trailing digit run). -/
theorem get_embedding_matrix_absTol_by_branch (ds : List Char)
    (hne : ds.isEmpty = false) (hdig : ds.all Char.isDigit = true) :
    get_embedding_matrix_absTol (['e','i','g','e','n','c','o','r','r','_'] ++ ds) =
      some (1/100000) ∧
    get_embedding_matrix_absTol (['d','b','l','c','o','r','r','_'] ++ ds) =
      some (1/100000) ∧
    get_embedding_matrix_absTol (['t','e','s','t','c','o','r','r','_'] ++ ds) = some 100 ∧
    get_embedding_matrix_absTol (['t','e','s','t','c','o','r','r','1','0','0','_'] ++ ds) =
      some 100 := by
  have hE : ('e' : Char) ∉ ds := notMem_of_digitRun hdig (by decide)
  have hP : ('p' : Char) ∉ ds := notMem_of_digitRun hdig (by decide)
  have hT : ('t' : Char) ∉ ds := notMem_of_digitRun hdig (by decide)
  have hD : ('d' : Char) ∉ ds := notMem_of_digitRun hdig (by decide)
  have hrun : isDigitRun ds = true := by rw [isDigitRun, hne, hdig]; rfl
  refine ⟨?_, ?_, ?_, ?_⟩
  · rw [get_embedding_matrix_absTol]
    rw [if_neg (by
      rw [show reSearch ['p','e','n','c','o','r','r','_']
          (['e','i','g','e','n','c','o','r','r','_'] ++ ds) =
          reSearch ['p','e','n','c','o','r','r','_'] ds from rfl]
      rw [reSearch_false_of_head_notMem hP]
      exact Bool.false_ne_true)]
    rw [if_pos (reSearch_of_matchHere (show matchHere ['e','i','g','e','n','c','o','r','r','_'] (['e','i','g','e','n','c','o','r','r','_'] ++ ds) = true from hrun))]
  · rw [get_embedding_matrix_absTol]
    rw [if_neg (by
      rw [show reSearch ['p','e','n','c','o','r','r','_']
          (['d','b','l','c','o','r','r','_'] ++ ds) =
          reSearch ['p','e','n','c','o','r','r','_'] ds from rfl]
      rw [reSearch_false_of_head_notMem hP]
      exact Bool.false_ne_true)]
    rw [if_neg (by
      rw [show reSearch ['e','i','g','e','n','c','o','r','r','_']
          (['d','b','l','c','o','r','r','_'] ++ ds) =
          reSearch ['e','i','g','e','n','c','o','r','r','_'] ds from rfl]
      rw [reSearch_false_of_head_notMem hE]
      exact Bool.false_ne_true)]
    rw [if_neg (by
      rw [show reSearch ['t','e','s','t','c','o','r','r','_']
          (['d','b','l','c','o','r','r','_'] ++ ds) =
          reSearch ['t','e','s','t','c','o','r','r','_'] ds from rfl]
      rw [reSearch_false_of_head_notMem hT]
      exact Bool.false_ne_true)]
    rw [if_neg (by
      rw [show reSearch ['t','e','s','t','c','o','r','r','1','0','0','_']
          (['d','b','l','c','o','r','r','_'] ++ ds) =
          reSearch ['t','e','s','t','c','o','r','r','1','0','0','_'] ds from rfl]
      rw [reSearch_false_of_head_notMem hT]
      exact Bool.false_ne_true)]
    rw [if_pos (reSearch_of_matchHere (show matchHere ['d','b','l','c','o','r','r','_'] (['d','b','l','c','o','r','r','_'] ++ ds) = true from hrun))]
  · rw [get_embedding_matrix_absTol]
    rw [if_neg (by
      rw [show reSearch ['p','e','n','c','o','r','r','_']
          (['t','e','s','t','c','o','r','r','_'] ++ ds) =
          reSearch ['p','e','n','c','o','r','r','_'] ds from rfl]
      rw [reSearch_false_of_head_notMem hP]
      exact Bool.false_ne_true)]
    rw [if_neg (by
      rw [show reSearch ['e','i','g','e','n','c','o','r','r','_']
          (['t','e','s','t','c','o','r','r','_'] ++ ds) =
          reSearch ['e','i','g','e','n','c','o','r','r','_'] ds from rfl]
      rw [reSearch_false_of_head_notMem hE]
      exact Bool.false_ne_true)]
    rw [if_pos (reSearch_of_matchHere (show matchHere ['t','e','s','t','c','o','r','r','_'] (['t','e','s','t','c','o','r','r','_'] ++ ds) = true from hrun))]
  · rw [get_embedding_matrix_absTol]
    rw [if_neg (by
      rw [show reSearch ['p','e','n','c','o','r','r','_']
          (['t','e','s','t','c','o','r','r','1','0','0','_'] ++ ds) =
          reSearch ['p','e','n','c','o','r','r','_'] ds from rfl]
      rw [reSearch_false_of_head_notMem hP]
      exact Bool.false_ne_true)]
    rw [if_neg (by
      rw [show reSearch ['e','i','g','e','n','c','o','r','r','_']
          (['t','e','s','t','c','o','r','r','1','0','0','_'] ++ ds) =
          reSearch ['e','i','g','e','n','c','o','r','r','_'] ds from rfl]
      rw [reSearch_false_of_head_notMem hE]
      exact Bool.false_ne_true)]
    rw [if_neg (by
      rw [show reSearch ['t','e','s','t','c','o','r','r','_']
          (['t','e','s','t','c','o','r','r','1','0','0','_'] ++ ds) =
          reSearch ['t','e','s','t','c','o','r','r','_'] ds from rfl]
      rw [reSearch_false_of_head_notMem hT]
      exact Bool.false_ne_true)]
    rw [if_pos (reSearch_of_matchHere (show matchHere ['t','e','s','t','c','o','r','r','1','0','0','_'] (['t','e','s','t','c','o','r','r','1','0','0','_'] ++ ds) = true from hrun))]

/-- C2 amended witness: the four branch results at the digit run "7". -/
theorem get_embedding_matrix_absTol_by_branch_witness :
    get_embedding_matrix_absTol ['e','i','g','e','n','c','o','r','r','_','7'] =
      some (1/100000) ∧
    get_embedding_matrix_absTol ['d','b','l','c','o','r','r','_','7'] =
      some (1/100000) ∧
    get_embedding_matrix_absTol ['t','e','s','t','c','o','r','r','_','7'] = some 100 ∧
    get_embedding_matrix_absTol ['t','e','s','t','c','o','r','r','1','0','0','_','7'] =
      some 100 :=
  get_embedding_matrix_absTol_by_branch ['7'] (by decide) (by decide)

/-! k-neighbour score (Metrics.py). -/

/-- Stable descending-value order on positions of the row a: position i
precedes position j when its value is larger, with ties broken by
index. -/
def argRel (a : List ℚ) (i j : ℕ) : Prop :=
  a.getD j 0 < a.getD i 0 ∨ (a.getD i 0 = a.getD j 0 ∧ i ≤ j)

instance argRel_decidable (a : List ℚ) : DecidableRel (argRel a) := fun i j =>
  inferInstanceAs (Decidable (_ ∨ _ ∧ _))

/-- Indices of the row sorted by decreasing value.  Models the index
bookkeeping of np.argpartition(xs, -k)[-k:], whose guarantee is that
the selected k indices carry the k largest values and that its element 0
carries the k-th largest value; in this sorted model the k-th largest
value sits at the last position of the first k entries. -/
def argsortDesc (a : List ℚ) : List ℕ :=
  List.insertionSort (argRel a) (List.range a.length)

/-- Model of get_k_neighbour_score (Metrics.py).  k is incremented to
account for the self-match; the top-(k+1) index sets are the first k+1
entries of the descending argsort; kth_element is the value at
imgProd_max_index's position of the (k+1)-th largest value (element 0 of
the argpartition slice in the source); np.where is a filter over all
positions; np.union1d and np.intersect1d are modelled as finite sets
(only membership and size are consumed).  Returns the signed count
len(intersection) - 1. -/
def get_k_neighbour_score (imageProducts embeddingDotProducts : List ℚ) (k : ℕ) : ℤ :=
  let kk := k + 1
  let imgProd_max_index := (argsortDesc imageProducts).take kk
  let embProd_max_index := (argsortDesc embeddingDotProducts).take kk
  let kth_element := imageProducts.getD (imgProd_max_index.getD (kk - 1) 0) 0
  let kth_element_index := (List.range imageProducts.length).filter
    (fun i => imageProducts.getD i 0 = kth_element)
  let imgUnion := imgProd_max_index.toFinset ∪ kth_element_index.toFinset
  let similar_neighbours := imgUnion ∩ embProd_max_index.toFinset
  (similar_neighbours.card : ℤ) - 1

/-- Model of get_normed_k_neighbour_score (Metrics.py): the k-neighbour
score divided by k. -/
def get_normed_k_neighbour_score (imageProducts embeddingDotProducts : List ℚ) (k : ℕ) : ℚ :=
  (get_k_neighbour_score imageProducts embeddingDotProducts k : ℚ) / k

theorem argsortDesc_length (a : List ℚ) : (argsortDesc a).length = a.length := by
  rw [argsortDesc, (List.perm_insertionSort _ _).length_eq, List.length_range]

theorem argsortDesc_nodup (a : List ℚ) : (argsortDesc a).Nodup :=
  ((List.perm_insertionSort _ _).nodup_iff).mpr (List.nodup_range _)

theorem get_k_neighbour_score_self (p : List ℚ) (k : ℕ) (hkN : k + 1 ≤ p.length) :
    get_k_neighbour_score p p k = k := by
  rw [get_k_neighbour_score]
  have hnodup : ((argsortDesc p).take (k + 1)).Nodup :=
    (List.take_sublist _ _).nodup (argsortDesc_nodup p)
  have hlen : ((argsortDesc p).take (k + 1)).length = k + 1 := by
    rw [List.length_take, argsortDesc_length]; omega
  have hsub : ((argsortDesc p).take (k + 1)).toFinset ⊆
      ((argsortDesc p).take (k + 1)).toFinset ∪
        ((List.range p.length).filter (fun i => p.getD i 0 =
          p.getD (((argsortDesc p).take (k + 1)).getD (k + 1 - 1) 0) 0)).toFinset :=
    Finset.subset_union_left
  rw [Finset.inter_eq_right.mpr hsub]
  rw [List.toFinset_card_of_nodup hnodup, hlen]
  push_cast
  ring

/-- C3. Evaluating the normed k-neighbour score of a row against itself
(perfect embedding: the embedding dot-product row equals the similarity
row) gives exactly 1, for every row and every k >= 1 with k + 1 <= N. -/
theorem normed_k_neighbour_score_self_eq_one (p : List ℚ) (k : ℕ)
    (hk : 1 ≤ k) (hkN : k + 1 ≤ p.length) :
    get_normed_k_neighbour_score p p k = 1 := by
  rw [get_normed_k_neighbour_score, get_k_neighbour_score_self p k hkN]
  push_cast
  rw [div_self (by exact_mod_cast (Nat.cast_ne_zero.mpr (by omega : k ≠ 0) : ((k:ℚ) ≠ 0)))]

/-- C3 witness: the row [5, 3, 4] against itself at k = 1. -/
theorem normed_k_neighbour_score_self_witness :
    (1 ≤ 1 ∧ 1 + 1 ≤ 3) ∧ get_normed_k_neighbour_score [5, 3, 4] [5, 3, 4] 1 = 1 :=
  ⟨⟨le_refl 1, by omega⟩,
    normed_k_neighbour_score_self_eq_one [5, 3, 4] 1 (le_refl 1) (by decide)⟩

/-- C4 counterexample: with similarity row [3,2,1,0] and embedding
dot-product row [0,1,2,3] at k = 1, the two top-2 index sets are
disjoint and the normed k-neighbour score is -1, outside [0, 1]. -/
theorem normed_k_neighbour_score_negative_counterexample :
    get_normed_k_neighbour_score [3, 2, 1, 0] [0, 1, 2, 3] 1 < 0 := by
  have h : get_k_neighbour_score [3, 2, 1, 0] [0, 1, 2, 3] 1 = -1 := by decide
  rw [get_normed_k_neighbour_score, h]
  norm_num

/-- Shape of the k-neighbour score: intersection count minus one, the
intersection being contained in the embedding-side top-(k+1) index set. -/
theorem get_k_neighbour_score_shape (a b : List ℚ) (k : ℕ) :
    ∃ S : Finset ℕ, get_k_neighbour_score a b k = (S.card : ℤ) - 1 ∧
      S ⊆ ((argsortDesc b).take (k + 1)).toFinset :=
  ⟨_, rfl, Finset.inter_subset_right⟩

theorem get_k_neighbour_score_int_bounds (a b : List ℚ) (k : ℕ) :
    -1 ≤ get_k_neighbour_score a b k ∧ get_k_neighbour_score a b k ≤ k := by
  obtain ⟨S, hEq, hSub⟩ := get_k_neighbour_score_shape a b k
  have h1 : S.card ≤ ((argsortDesc b).take (k + 1)).toFinset.card :=
    Finset.card_le_card hSub
  have h2 : ((argsortDesc b).take (k + 1)).toFinset.card ≤
      ((argsortDesc b).take (k + 1)).length := List.toFinset_card_le _
  have h3 : ((argsortDesc b).take (k + 1)).length ≤ k + 1 := by
    rw [List.length_take]; omega
  rw [hEq]
  omega

/-- C4 amended: for rows of a common length N and 1 <= k with
k + 1 <= N, the normed k-neighbour score lies in [-1/k, 1]; the lower
end 0 of the claim would require the self-match to land in both top
index sets, which arbitrary row pairs need not provide. -/
theorem normed_k_neighbour_score_bounds (a b : List ℚ) (k : ℕ)
    (hk : 1 ≤ k) (hab : a.length = b.length) (hkN : k + 1 ≤ a.length) :
    -(1 / k) ≤ get_normed_k_neighbour_score a b k ∧
      get_normed_k_neighbour_score a b k ≤ 1 := by
  have hkQ : (0:ℚ) < k := by exact_mod_cast (by omega : 0 < k)
  obtain ⟨hlo, hhi⟩ := get_k_neighbour_score_int_bounds a b k
  constructor
  · rw [get_normed_k_neighbour_score, ← neg_div]
    rw [div_le_div_right hkQ]
    exact_mod_cast hlo
  · rw [get_normed_k_neighbour_score, div_le_one hkQ]
    exact_mod_cast hhi

/-- C4 amended witness: the bounds at the counterexample rows. -/
theorem normed_k_neighbour_score_bounds_witness :
    (1 ≤ 1 ∧ (4 = 4) ∧ 1 + 1 ≤ 4) ∧
    (-(1 / 1) ≤ get_normed_k_neighbour_score [3, 2, 1, 0] [0, 1, 2, 3] 1 ∧
      get_normed_k_neighbour_score [3, 2, 1, 0] [0, 1, 2, 3] 1 ≤ 1) :=
  ⟨⟨le_refl 1, rfl, by omega⟩,
    normed_k_neighbour_score_bounds [3, 2, 1, 0] [0, 1, 2, 3] 1
      (le_refl 1) rfl (by decide)⟩

/-! Normalized cross-correlation comparator ncc (ConceptTesting.py). -/

/-- Entry of an image, 0 outside range. -/
def imgGet (a : Img) (i j : ℕ) : ℕ := (a.getD i []).getD j 0

/-- np.sum of an image. -/
def sumImg (a : Img) : ℕ := (a.map List.sum).sum

/-- np.pad(mainImg, p, 'wrap'): each side grows by p rows/columns and
indices wrap cyclically into the original image. -/
def wrapPad (a : Img) (p : ℕ) : Img :=
  (List.range (a.length + 2 * p)).map (fun i =>
    (List.range ((a.headD []).length + 2 * p)).map (fun j =>
      imgGet a (((i : ℤ) - p).emod a.length).toNat (((j : ℤ) - p).emod (a.headD []).length).toNat))

/-- Correlation numerator of TM_CCORR at window position (y, x): the sum
of products of template entries with the covered main-image entries. -/
def tmNum (main temp : Img) (y x : ℕ) : ℚ :=
  ((List.range temp.length).map (fun i =>
    ((List.range (temp.headD []).length).map (fun j =>
      (imgGet temp i j : ℚ) * (imgGet main (y + i) (x + j) : ℚ))).sum)).sum

/-- Normalization denominator of TM_CCORR_NORMED at window position
(y, x): sum of squared template entries times sum of squared covered
main-image entries. -/
def tmDen (main temp : Img) (y x : ℕ) : ℚ :=
  (((List.range temp.length).map (fun i =>
    ((List.range (temp.headD []).length).map (fun j =>
      ((imgGet temp i j : ℚ))^2)).sum)).sum) *
  (((List.range temp.length).map (fun i =>
    ((List.range (temp.headD []).length).map (fun j =>
      ((imgGet main (y + i) (x + j) : ℚ))^2)).sum)).sum)

/-- Model of cv2.matchTemplate(main, temp, cv2.TM_CCORR_NORMED) from its
documented formula R(y,x) = sum(T*I) / sqrt(sum(T^2) * sum(I^2)),
listing the correlation map row-major.  The square root is the oracle
sqrtQ; a zero denominator yields 0 (rational division by zero is 0,
matching OpenCV's handling of the degenerate normalization). -/
def matchTemplateCCORRNormed (main temp : Img) (sqrtQ : ℚ → ℚ) : List ℚ :=
  ((List.range (main.length - temp.length + 1)).map (fun y =>
    (List.range ((main.headD []).length - (temp.headD []).length + 1)).map (fun x =>
      tmNum main temp y x / sqrtQ (tmDen main temp y x)))).join

/-- Model of ncc (ConceptTesting.py): the all-zero main-image guard, the
wrap padding of the main image by max(height, width), template matching
with TM_CCORR_NORMED and the maximum of the correlation map
(cv2.minMaxLoc; 0 for an empty map, which does not occur).  The uint8
conversion is the identity on binary images. -/
def ncc (mainImg tempImg : Img) (sqrtQ : ℚ → ℚ) : ℚ :=
  if sumImg mainImg = 0 then
    if sumImg tempImg = 0 then 1 else 0
  else
    let padded := wrapPad mainImg (max mainImg.length (mainImg.headD []).length)
    let corr := matchTemplateCCORRNormed padded tempImg sqrtQ
    (corr.max?).getD 0

theorem imgGet_eq_zero_of_sum_eq_zero {b : Img} (h : sumImg b = 0) (i j : ℕ) :
    imgGet b i j = 0 := by
  rw [sumImg, List.sum_eq_zero_iff] at h
  rw [imgGet]
  rcases Nat.lt_or_ge i b.length with hi | hi
  · have hmem : (b[i]).sum ∈ b.map List.sum := List.mem_map_of_mem _ (List.getElem_mem _)
    have hsum : (b[i]).sum = 0 := h _ hmem
    rw [List.getD_eq_getElem _ _ hi]
    rw [List.sum_eq_zero_iff] at hsum
    rcases Nat.lt_or_ge j (b[i]).length with hj | hj
    · rw [List.getD_eq_getElem _ _ hj]
      exact hsum _ (List.getElem_mem _)
    · rw [List.getD_eq_default _ _ hj]
  · rw [List.getD_eq_default _ _ hi]
    rfl

theorem tmNum_eq_zero_of_temp_zero {temp : Img} (h : sumImg temp = 0)
    (main : Img) (y x : ℕ) : tmNum main temp y x = 0 := by
  rw [tmNum]
  apply List.sum_eq_zero
  intro s hs
  rw [List.mem_map] at hs
  obtain ⟨i, _, rfl⟩ := hs
  apply List.sum_eq_zero
  intro t ht
  rw [List.mem_map] at ht
  obtain ⟨j, _, rfl⟩ := ht
  rw [imgGet_eq_zero_of_sum_eq_zero h i j]
  norm_num

theorem max_getD_zero_of_all_zero {l : List ℚ} (h : ∀ q ∈ l, q = 0) :
    (l.max?).getD 0 = 0 := by
  cases hm : l.max? with
  | none => rfl
  | some m =>
    have hmem : m ∈ l := List.max?_mem (fun a b => max_choice a b) hm
    rw [Option.getD_some]
    exact h m hmem

/-- C7. The image comparator ncc returns 1 when both images are all
zero, and 0 when exactly one of them is all zero, in either argument
order: the all-zero main image is handled by the explicit guard, while
an all-zero template zeroes every correlation numerator so the maximum
of the correlation map is 0. -/
theorem ncc_degenerate_cases (a b : Img) (sqrtQ : ℚ → ℚ)
    (h : sumImg a = 0 ∨ sumImg b = 0) :
    ncc a b sqrtQ = if sumImg a = 0 ∧ sumImg b = 0 then 1 else 0 := by
  rw [ncc]
  by_cases ha : sumImg a = 0
  · rw [if_pos ha]
    by_cases hb : sumImg b = 0
    · rw [if_pos hb, if_pos ⟨ha, hb⟩]
    · rw [if_neg hb, if_neg (fun hc => hb hc.2)]
  · have hb : sumImg b = 0 := h.resolve_left ha
    rw [if_neg ha, if_neg (fun hc => ha hc.1)]
    apply max_getD_zero_of_all_zero
    intro q hq
    rw [matchTemplateCCORRNormed, List.mem_join] at hq
    obtain ⟨row, hrow, hqrow⟩ := hq
    rw [List.mem_map] at hrow
    obtain ⟨y, _, rfl⟩ := hrow
    rw [List.mem_map] at hqrow
    obtain ⟨x, _, rfl⟩ := hqrow
    rw [tmNum_eq_zero_of_temp_zero hb]
    exact zero_div _

/-- C7 witness: the three degenerate cases at concrete one-pixel
images. -/
theorem ncc_degenerate_cases_witness :
    (ncc [[0]] [[0]] (fun _ => 0) =
      if sumImg [[0]] = 0 ∧ sumImg [[0]] = 0 then 1 else 0) ∧
    (ncc [[0]] [[1]] (fun _ => 0) =
      if sumImg [[0]] = 0 ∧ sumImg [[1]] = 0 then 1 else 0) ∧
    (ncc [[1]] [[0]] (fun _ => 0) =
      if sumImg [[1]] = 0 ∧ sumImg [[0]] = 0 then 1 else 0) :=
  ⟨ncc_degenerate_cases [[0]] [[0]] _ (Or.inl (by decide)),
   ncc_degenerate_cases [[0]] [[1]] _ (Or.inl (by decide)),
   ncc_degenerate_cases [[1]] [[0]] _ (Or.inr (by decide))⟩

/-! Embedding extractor get_embeddings_mPCA (EmbeddingFunctions.py).
np.linalg.eigh is an external LAPACK routine whose output is passed in
as the oracle pair (eighEvals, eighVecs): eighEvals lists the
eigenvalues in the ascending order eigh guarantees, eighVecs holds the
eigenvectors as columns.  np.sqrt and sklearn's l2 column norm are
mediated by the square-root oracle sqrtQ (modelling np.sqrt on
nonnegative reals). -/

/-- math.isclose(a, b, abs_tol): |a-b| <= max(rel_tol*max(|a|,|b|),
abs_tol) with the default rel_tol = 1e-09. -/
def mathIsClose (a b abs_tol : ℚ) : Bool :=
  |a - b| ≤ max ((1/1000000000) * max |a| |b|) abs_tol

/-- Model of get_eig_for_symmetric (EmbeddingFunctions.py): check
symmetry, then reverse the eigenvalue order to descending and reverse
the eigenvector columns to match (eigenvectors.T[::-1].T). -/
def get_eig_for_symmetric (matrixG : List (List ℚ)) (eighEvals : List ℚ)
    (eighVecs : List (List ℚ)) : Except Err (List ℚ × List (List ℚ)) :=
  if ¬ check_symmetric matrixG then .error .valueError
  else .ok (eighEvals.reverse, eighVecs.map List.reverse)

/-- Pre-normalization embedding matrix Drootm @ eigenvectors.T
(nDim by n): entry (i, j) is sqrt of the i-th descending eigenvalue
(negatives zeroed first, eigenvalues[0 > eigenvalues] = 0) times
eigenvectors[j][i]; off-diagonal entries of np.sqrt(np.diag(...))
are exactly 0. -/
def mPCA_raw (n nDim : ℕ) (eigenvalues : List ℚ) (eigenvectors : List (List ℚ))
    (sqrtQ : ℚ → ℚ) : List (List ℚ) :=
  mkMat nDim n (fun i j =>
    sqrtQ (if eigenvalues.getD i 0 < 0 then 0 else eigenvalues.getD i 0) *
      getE eigenvectors j i)

/-- Squared Euclidean norm of column j. -/
def colNormSq (m : List (List ℚ)) (j : ℕ) : ℚ :=
  (m.map (fun row => (row.getD j 0)^2)).sum

/-- sklearn normalize(matrixA, norm='l2', axis=0) followed by the
uniform hypersphere rescale * (r+1)**0.5: each column is divided by its
l2 norm (zero-norm columns are left unchanged, sklearn substitutes a
unit divisor) and every entry is multiplied by sqrt(r + 1). -/
def normalizeColsScale (m : List (List ℚ)) (nRows nCols : ℕ) (r : ℚ)
    (sqrtQ : ℚ → ℚ) : List (List ℚ) :=
  mkMat nRows nCols (fun i j =>
    (if colNormSq m j = 0 then getE m i j else getE m i j / sqrtQ (colNormSq m j)) *
      sqrtQ (r + 1))

/-- Model of get_embeddings_mPCA (EmbeddingFunctions.py): validate
(matrixG, nDim), eigendecompose (descending), fail with
NonPositiveSemidefiniteError unless each of the top nDim eigenvalues is
positive or within abs_tol of zero (math.isclose), zero the negative
eigenvalues, form Drootm @ eigenvectors.T and normalize columns with the
hypersphere rescale.  Source defaults: nDim = None, r = 1,
abs_tol = 1e-5. -/
def get_embeddings_mPCA (matrixG : List (List ℚ)) (nDim : Option ℤ) (r abs_tol : ℚ)
    (eighEvals : List ℚ) (eighVecs : List (List ℚ)) (sqrtQ : ℚ → ℚ) :
    Except Err (List (List ℚ)) :=
  match is_valid_matrix_g matrixG nDim with
  | .error e => .error e
  | .ok (g, nD) =>
    match get_eig_for_symmetric g eighEvals eighVecs with
    | .error e => .error e
    | .ok (eigenvalues, eigenvectors) =>
      if ¬ ((eigenvalues.take nD.toNat).all
          (fun ev => (0 < ev : Bool) || mathIsClose ev 0 abs_tol)) then
        .error .nonPSD
      else
        .ok (normalizeColsScale
          (mPCA_raw g.length nD.toNat eigenvalues eigenvectors sqrtQ)
          nD.toNat g.length r sqrtQ)

theorem mathIsClose_zero_iff {ev abs_tol : ℚ} (h : 0 ≤ abs_tol) :
    mathIsClose ev 0 abs_tol = true ↔ |ev| ≤ abs_tol := by
  rw [mathIsClose, decide_eq_true_iff]
  rw [sub_zero, abs_zero, max_eq_left (abs_nonneg ev)]
  constructor
  · intro hle
    rcases max_cases ((1/1000000000) * |ev|) abs_tol with ⟨heq, _⟩ | ⟨heq, _⟩
    · rw [heq] at hle
      have : |ev| = 0 := by nlinarith [abs_nonneg ev]
      rw [this]; exact h
    · rwa [heq] at hle
  · intro hle
    exact le_trans hle (le_max_right _ _)

theorem symPart_eq_self {g : List (List ℚ)} {n : ℕ} (hg : Rect g n n) (hn : 0 < n)
    (hsym : ∀ i j, i < n → j < n → getE g i j = getE g j i) : symPart g = g :=
  rect_ext (symPart_rect hg hn) hg (fun i j hi hj => by
    rw [getE_symPart hg hn hi hj, ← hsym i j hi hj]; ring)

/-- Unfolding of the extractor on a validated symmetric matrix: the PSD
gate inspects the top r of the descending eigenvalues and otherwise the
normalized embedding matrix is produced. -/
theorem get_embeddings_mPCA_eq {g : List (List ℚ)} {n : ℕ} {r : ℤ}
    (hg : Rect g n n) (hn : 0 < n)
    (hsym : ∀ i j, i < n → j < n → getE g i j = getE g j i)
    (hr : 0 < r) (hrn : r ≤ (n : ℤ)) (rad abs_tol : ℚ)
    (evs : List ℚ) (vecs : List (List ℚ)) (sqrtQ : ℚ → ℚ) :
    get_embeddings_mPCA g (some r) rad abs_tol evs vecs sqrtQ =
      if ¬ ((evs.reverse.take r.toNat).all
          (fun ev => (0 < ev : Bool) || mathIsClose ev 0 abs_tol)) then
        .error .nonPSD
      else
        .ok (normalizeColsScale
          (mPCA_raw n r.toNat evs.reverse (vecs.map List.reverse) sqrtQ)
          r.toNat n rad sqrtQ) := by
  have htol : ∀ i j, i < n → j < n → |getE g i j - getE g j i| ≤ 1/100000 := by
    intro i j hi hj
    rw [hsym i j hi hj]
    simp
  have hvalid : is_valid_matrix_g g (some r) = .ok (symPart g, r) :=
    is_valid_matrix_g_ok hg hn htol hr hrn
  have hsp : symPart g = g := symPart_eq_self hg hn hsym
  have hcheck : check_symmetric g (1/100000) = true :=
    check_symmetric_of_tol hg hn (by norm_num) htol
  have heig : get_eig_for_symmetric g evs vecs =
      .ok (evs.reverse, vecs.map List.reverse) := by
    rw [get_eig_for_symmetric, if_neg (by rw [hcheck]; exact fun hf => hf rfl)]
  rw [get_embeddings_mPCA, hvalid, hsp]
  simp only [heig, hg.1]

/-- C6. On a validated symmetric matrix with 0 < r <= N, the extractor
raises NonPositiveSemidefiniteError exactly when one of the r largest
eigenvalues (the top r of the eigh output, sorted) is neither strictly
positive nor within abs_tol of zero; otherwise it returns an embedding
matrix without raising. -/
theorem get_embeddings_mPCA_raises_iff {g : List (List ℚ)} {n : ℕ} {r : ℤ}
    (hg : Rect g n n) (hn : 0 < n)
    (hsym : ∀ i j, i < n → j < n → getE g i j = getE g j i)
    (hr : 0 < r) (hrn : r ≤ (n : ℤ)) (rad abs_tol : ℚ) (habs : 0 ≤ abs_tol)
    (evs : List ℚ) (vecs : List (List ℚ)) (sqrtQ : ℚ → ℚ)
    (hsorted : evs.Sorted (· ≤ ·)) :
    (get_embeddings_mPCA g (some r) rad abs_tol evs vecs sqrtQ = .error .nonPSD ↔
      ∃ ev ∈ (evs.reverse.take r.toNat), ¬(0 < ev ∨ |ev| ≤ abs_tol)) ∧
    ((¬ ∃ ev ∈ (evs.reverse.take r.toNat), ¬(0 < ev ∨ |ev| ≤ abs_tol)) →
      ∃ A, get_embeddings_mPCA g (some r) rad abs_tol evs vecs sqrtQ = .ok A) := by
  rw [get_embeddings_mPCA_eq hg hn hsym hr hrn rad abs_tol evs vecs sqrtQ]
  have hcond : ((evs.reverse.take r.toNat).all
      (fun ev => (0 < ev : Bool) || mathIsClose ev 0 abs_tol)) = true ↔
      ∀ ev ∈ evs.reverse.take r.toNat, (0 < ev ∨ |ev| ≤ abs_tol) := by
    rw [List.all_eq_true]
    constructor
    · intro hall ev hev
      have := hall ev hev
      rw [Bool.or_eq_true, decide_eq_true_iff, mathIsClose_zero_iff habs] at this
      exact this
    · intro hall ev hev
      rw [Bool.or_eq_true, decide_eq_true_iff, mathIsClose_zero_iff habs]
      exact hall ev hev
  by_cases hc : ((evs.reverse.take r.toNat).all
      (fun ev => (0 < ev : Bool) || mathIsClose ev 0 abs_tol)) = true
  · rw [if_neg (fun hf => hf hc)]
    refine ⟨⟨fun herr => absurd herr (by simp), ?_⟩, fun _ => ⟨_, rfl⟩⟩
    rintro ⟨ev, hev, hbad⟩
    exact absurd (hcond.mp hc ev hev) hbad
  · rw [if_pos hc]
    have hex : ∃ ev ∈ evs.reverse.take r.toNat, ¬(0 < ev ∨ |ev| ≤ abs_tol) := by
      have hnall : ¬ ∀ ev ∈ evs.reverse.take r.toNat, (0 < ev ∨ |ev| ≤ abs_tol) :=
        fun hall => hc (hcond.mpr hall)
      rcases not_forall.mp hnall with ⟨ev, hev⟩
      rcases Classical.not_imp.mp hev with ⟨hmem, hbad⟩
      exact ⟨ev, hmem, hbad⟩
    exact ⟨⟨fun _ => hex, fun _ => rfl⟩, fun hno => absurd hex hno⟩

/-- C6 witness: the PSD check characterization at the one-by-one matrix
[[1]] with rank 1 and eigenvalue oracle [1]. -/
theorem get_embeddings_mPCA_raises_iff_witness :
    (get_embeddings_mPCA [[1]] (some 1) 1 (1/100000) [1] [[1]] (fun _ => 0) =
        .error .nonPSD ↔
      ∃ ev ∈ (([1] : List ℚ).reverse.take (1:ℤ).toNat),
        ¬(0 < ev ∨ |ev| ≤ 1/100000)) ∧
    ((¬ ∃ ev ∈ (([1] : List ℚ).reverse.take (1:ℤ).toNat),
        ¬(0 < ev ∨ |ev| ≤ 1/100000)) →
      ∃ A, get_embeddings_mPCA [[1]] (some 1) 1 (1/100000) [1] [[1]] (fun _ => 0) =
        .ok A) :=
  @get_embeddings_mPCA_raises_iff [[1]] 1 1
    ⟨rfl, fun row hrow => by rw [List.mem_singleton] at hrow; subst hrow; rfl⟩
    (by decide)
    (fun i j hi hj => by interval_cases i <;> interval_cases j <;> rfl)
    (by decide) (by decide) 1 (1/100000) (by norm_num) [1] [[1]] (fun _ => 0)
    (by simp)

theorem sum_map_mul_left_q (l : List ℕ) (c : ℚ) (f : ℕ → ℚ) :
    (l.map (fun i => c * f i)).sum = c * (l.map f).sum := by
  induction l with
  | nil => simp
  | cons a t ih => simp [ih, mul_add]

theorem colNormSq_mkMat (nr nc : ℕ) (f : ℕ → ℕ → ℚ) {j : ℕ} (hj : j < nc) :
    colNormSq (mkMat nr nc f) j = ((List.range nr).map (fun i => (f i j)^2)).sum := by
  rw [colNormSq, mkMat, List.map_map]
  congr 1
  apply List.map_congr_left
  intro i _
  simp only [Function.comp_apply]
  rw [List.getD_eq_getElem?_getD, List.getElem?_map, List.getElem?_range hj]
  simp

/-- C1 amended: on every successful extraction, every column of the
returned embedding matrix has squared Euclidean norm radius + 1 (so norm
sqrt(radius + 1), which is sqrt 2, not 1, at the default radius 1) -
except columns that are identically zero before normalization, which
stay at norm 0.  The square-root oracle is assumed exact on the finitely
many values the computation consumes. -/
theorem get_embeddings_mPCA_column_norms {g : List (List ℚ)} {n : ℕ} {r : ℤ}
    (hg : Rect g n n) (hn : 0 < n)
    (hsym : ∀ i j, i < n → j < n → getE g i j = getE g j i)
    (hr : 0 < r) (hrn : r ≤ (n : ℤ)) (rad abs_tol : ℚ)
    (evs : List ℚ) (vecs : List (List ℚ)) (sqrtQ : ℚ → ℚ)
    (hpass : (evs.reverse.take r.toNat).all
      (fun ev => (0 < ev : Bool) || mathIsClose ev 0 abs_tol) = true)
    (hrad : sqrtQ (rad + 1) ^ 2 = rad + 1)
    (hcols : ∀ j < n,
      colNormSq (mPCA_raw n r.toNat evs.reverse (vecs.map List.reverse) sqrtQ) j ≠ 0 →
      sqrtQ (colNormSq (mPCA_raw n r.toNat evs.reverse (vecs.map List.reverse) sqrtQ) j) ^ 2 =
        colNormSq (mPCA_raw n r.toNat evs.reverse (vecs.map List.reverse) sqrtQ) j) :
    ∀ A, get_embeddings_mPCA g (some r) rad abs_tol evs vecs sqrtQ = .ok A →
      ∀ j, j < n → (colNormSq A j = rad + 1 ∨ colNormSq A j = 0) := by
  intro A hA j hj
  rw [get_embeddings_mPCA_eq hg hn hsym hr hrn rad abs_tol evs vecs sqrtQ] at hA
  rw [if_neg (fun hf => hf hpass)] at hA
  have hAeq := Except.ok.inj hA
  subst hAeq
  have hM : colNormSq (normalizeColsScale
      (mPCA_raw n r.toNat evs.reverse (vecs.map List.reverse) sqrtQ) r.toNat n rad sqrtQ) j =
      ((List.range r.toNat).map (fun i =>
        ((if colNormSq (mPCA_raw n r.toNat evs.reverse (vecs.map List.reverse) sqrtQ) j = 0
          then getE (mPCA_raw n r.toNat evs.reverse (vecs.map List.reverse) sqrtQ) i j
          else getE (mPCA_raw n r.toNat evs.reverse (vecs.map List.reverse) sqrtQ) i j /
            sqrtQ (colNormSq (mPCA_raw n r.toNat evs.reverse (vecs.map List.reverse) sqrtQ) j)) *
          sqrtQ (rad + 1))^2)).sum := by
    rw [normalizeColsScale]
    exact colNormSq_mkMat _ _ _ hj
  have hsumSq : ((List.range r.toNat).map (fun i =>
      (getE (mPCA_raw n r.toNat evs.reverse (vecs.map List.reverse) sqrtQ) i j)^2)).sum =
      colNormSq (mPCA_raw n r.toNat evs.reverse (vecs.map List.reverse) sqrtQ) j := by
    rw [mPCA_raw, colNormSq_mkMat _ _ _ hj]
    congr 1
    apply List.map_congr_left
    intro i hi
    rw [getE_mkMat _ (List.mem_range.mp hi) hj]
  by_cases hz : colNormSq (mPCA_raw n r.toNat evs.reverse (vecs.map List.reverse) sqrtQ) j = 0
  · right
    rw [hM]
    simp only [if_pos hz]
    rw [List.map_congr_left (fun i _ => by ring :
      ∀ i ∈ List.range r.toNat,
        ((getE (mPCA_raw n r.toNat evs.reverse (vecs.map List.reverse) sqrtQ) i j) *
          sqrtQ (rad + 1))^2 =
        sqrtQ (rad + 1)^2 *
          (getE (mPCA_raw n r.toNat evs.reverse (vecs.map List.reverse) sqrtQ) i j)^2)]
    rw [sum_map_mul_left_q, hsumSq, hz, mul_zero]
  · left
    rw [hM]
    simp only [if_neg hz]
    rw [List.map_congr_left (fun i _ => by ring :
      ∀ i ∈ List.range r.toNat,
        ((getE (mPCA_raw n r.toNat evs.reverse (vecs.map List.reverse) sqrtQ) i j /
            sqrtQ (colNormSq (mPCA_raw n r.toNat evs.reverse (vecs.map List.reverse) sqrtQ) j)) *
          sqrtQ (rad + 1))^2 =
        (sqrtQ (rad + 1)^2 /
          sqrtQ (colNormSq (mPCA_raw n r.toNat evs.reverse (vecs.map List.reverse) sqrtQ) j)^2) *
          (getE (mPCA_raw n r.toNat evs.reverse (vecs.map List.reverse) sqrtQ) i j)^2)]
    rw [sum_map_mul_left_q, hsumSq, hrad, hcols j hj hz]
    exact div_mul_cancel₀ _ hz

/-- C1 amended witness: the matrix [[1]] at rank 1, radius 3 and an
exact square-root oracle on the used values 1 and 4: the extraction
returns [[2]], whose single column has squared norm radius + 1 = 4. -/
theorem get_embeddings_mPCA_column_norms_witness :
    colNormSq [[2]] 0 = 3 + 1 ∨ colNormSq [[2]] 0 = 0 :=
  @get_embeddings_mPCA_column_norms [[1]] 1 1
    ⟨rfl, fun row hrow => by rw [List.mem_singleton] at hrow; subst hrow; rfl⟩
    (by decide)
    (fun i j hi hj => by interval_cases i <;> interval_cases j <;> rfl)
    (by decide) (by decide) 3 (1/100000) [1] [[1]]
    (fun q => if q = 4 then 2 else if q = 1 then 1 else 0)
    (by norm_num [mathIsClose])
    (by norm_num)
    (by
      intro j hj hne
      interval_cases j
      norm_num [mPCA_raw, mkMat, colNormSq, getE, List.range_succ])
    [[2]]
    (by
      rw [@get_embeddings_mPCA_eq [[1]] 1 1
        ⟨rfl, fun row hrow => by rw [List.mem_singleton] at hrow; subst hrow; rfl⟩
        (by decide)
        (fun i j hi hj => by interval_cases i <;> interval_cases j <;> rfl)
        (by decide) (by decide) 3 (1/100000) [1] [[1]]
        (fun q => if q = 4 then 2 else if q = 1 then 1 else 0)]
      rw [if_neg (fun hf => hf (by norm_num [mathIsClose]))]
      norm_num [normalizeColsScale, mPCA_raw, mkMat, colNormSq, getE, List.range_succ])
    0 (by decide)

/-- Rational stand-in for np.sqrt at the two values the counterexample
consumes: sqrt 1 = 1 and sqrt 2 as the approximation 577/408, accurate
to well below 1e-5 (the float value of sqrt 2 agrees to this
precision). -/
def sqrtApprox (q : ℚ) : ℚ := if q = 1 then 1 else if q = 2 then 577/408 else 0

/-- C1 counterexample: extracting from the already-valid correlation
matrix [[1]] at rank 1 with the default radius 1 returns the single
column [577/408] (the value sqrt 2 in the exact pipeline): its squared
norm is about 2, so the column norm is not 1.0 within any floating
tolerance below 1/2. -/
theorem get_embeddings_mPCA_column_norm_counterexample :
    get_embeddings_mPCA [[1]] (some 1) 1 (1/100000) [1] [[1]] sqrtApprox =
      .ok [[577/408]] ∧
    ¬ (|colNormSq [[577/408]] 0 - 1| ≤ 1/2) := by
  constructor
  · rw [@get_embeddings_mPCA_eq [[1]] 1 1
      ⟨rfl, fun row hrow => by rw [List.mem_singleton] at hrow; subst hrow; rfl⟩
      (by decide)
      (fun i j hi hj => by interval_cases i <;> interval_cases j <;> rfl)
      (by decide) (by decide) 1 (1/100000) [1] [[1]] sqrtApprox]
    rw [if_neg (fun hf => hf (by norm_num [mathIsClose]))]
    norm_num [normalizeColsScale, mPCA_raw, mkMat, colNormSq, getE, sqrtApprox,
      List.range_succ]
  · norm_num [colNormSq, abs_le]

/-! Bisection-style plateau search of investigate_sample_plateau_rank
(SamplingMethod.py).  The per-iteration k-score (an expensive pipeline
computation) is an oracle sequence indexed by the iteration counter; the
loop state mirrors the Python locals. -/

/-- Loop state of investigate_sample_plateau_rank. -/
structure PlateauState where
  high : ℕ
  low : ℕ
  selected_rank : ℕ
  max_k_score : ℚ
  iterations : ℕ
  same_rank : ℕ
  score_change : Bool
  max_score_rank : List ℕ
deriving DecidableEq, Repr

/-- Loop-variable initialization before the while loop: high =
training_size, low = 0, selected_rank = high, max_k_score = 2,
iterations = 0, same_rank = 0, score_change = False,
max_score_rank = []. -/
def plateauInit (training_size : ℕ) : PlateauState :=
  ⟨training_size, 0, training_size, 2, 0, 0, false, []⟩

/-- The branch that breaks out of the loop: score_change set, the score
equal to max_k_score and same_rank == 2. -/
def plateauBreaks (scores : ℕ → ℚ) (s : PlateauState) : Bool :=
  s.score_change && decide (scores s.iterations = s.max_k_score) &&
    decide (s.same_rank = 2)

/-- One non-breaking iteration of the while loop body, with k_score =
scores iterations; mirrors the if/elif/else ladder of the source,
followed by selected_rank = low and iterations += 1. -/
def plateauStep (training_size : ℕ) (scores : ℕ → ℚ) (s : PlateauState) : PlateauState :=
  let k_score := scores s.iterations
  let t :=
    if ¬ s.score_change then
      if s.iterations = 0 then
        { s with max_k_score := k_score, high := training_size,
                 low := training_size / 2 }
      else if k_score = s.max_k_score then
        { s with high := s.low, low := s.low / 2 }
      else
        { s with score_change := true, low := (s.high - s.low) / 2 + s.low }
    else if k_score ≠ s.max_k_score then
      { s with low := (s.high - s.low) / 2 + s.low, max_score_rank := [],
               same_rank := 0 }
    else
      { s with max_score_rank := s.max_score_rank ++ [s.low],
               low := s.low + (s.high - s.low) / 4,
               same_rank := s.same_rank + 1 }
  { t with selected_rank := t.low, iterations := s.iterations + 1 }

/-- Fuel-indexed run of the while loop (condition high - low > prox):
some plateau-rank value when the loop leaves within the fuel budget
(the final high, or max_score_rank[0] on the break branch), none when
the fuel is exhausted. -/
def plateauRun (training_size prox : ℕ) (scores : ℕ → ℚ) :
    ℕ → PlateauState → Option ℕ
  | 0, _ => none
  | fuel + 1, s =>
    if s.high - s.low > prox then
      if plateauBreaks scores s then some (s.max_score_rank.headD 0)
      else plateauRun training_size prox scores fuel (plateauStep training_size scores s)
    else some s.high

/-- The while loop of investigate_sample_plateau_rank terminates: some
finite fuel completes the run from the initial state. -/
def plateauTerminates (training_size prox : ℕ) (scores : ℕ → ℚ) : Prop :=
  ∃ fuel, (plateauRun training_size prox scores fuel (plateauInit training_size)).isSome = true

/-- Score sequence giving one score on the first iteration and a
different one ever after. -/
def plateauBadScores (n : ℕ) : ℚ := if n = 0 then 0 else 1

theorem plateauRun_stuck :
    ∀ (fuel m : ℕ),
      plateauRun 1 0 plateauBadScores fuel ⟨1, 0, 0, 0, m + 2, 0, true, []⟩ = none := by
  intro fuel
  induction fuel with
  | zero => intro m; rfl
  | succ f ih =>
    intro m
    rw [plateauRun]
    rw [if_pos (by norm_num)]
    rw [if_neg (by norm_num [plateauBreaks, plateauBadScores])]
    have hstep : plateauStep 1 plateauBadScores ⟨1, 0, 0, 0, m + 2, 0, true, []⟩ =
        ⟨1, 0, 0, 0, m + 3, 0, true, []⟩ := by
      norm_num [plateauStep, plateauBadScores]
    rw [hstep]
    have := ih (m + 1)
    rw [show m + 1 + 2 = m + 3 from rfl] at this
    exact this

/-- C8 counterexample: with training size 1, proximity bound prox = 0
and k-scores 0, 1, 1, 1, ... the loop reaches high = 1, low = 0 with a
changed score, and the bisection update low += (high - low) // 2 makes
no progress: the loop never terminates, refuting termination for every
proximity bound. -/
theorem plateau_loop_nonterminating_counterexample :
    ¬ plateauTerminates 1 0 plateauBadScores := by
  rintro ⟨fuel, hfuel⟩
  have hrun : ∀ f, plateauRun 1 0 plateauBadScores f (plateauInit 1) = none := by
    intro f
    match f with
    | 0 => rfl
    | 1 => rfl
    | (g + 2) =>
      rw [plateauRun]
      rw [if_pos (by norm_num [plateauInit])]
      rw [if_neg (by norm_num [plateauBreaks, plateauInit])]
      have h1 : plateauStep 1 plateauBadScores (plateauInit 1) =
          ⟨1, 0, 0, 0, 1, 0, false, []⟩ := by
        norm_num [plateauStep, plateauInit, plateauBadScores]
      rw [h1, plateauRun]
      rw [if_pos (by norm_num)]
      rw [if_neg (by norm_num [plateauBreaks, plateauBadScores])]
      have h2 : plateauStep 1 plateauBadScores ⟨1, 0, 0, 0, 1, 0, false, []⟩ =
          ⟨1, 0, 0, 0, 2, 0, true, []⟩ := by
        norm_num [plateauStep, plateauBadScores]
      rw [h2]
      have := plateauRun_stuck g 0
      rw [show (0:ℕ) + 2 = 2 from rfl] at this
      exact this
  rw [hrun fuel] at hfuel
  simp at hfuel

/-- Lexicographic measure for the loop once the first iteration is past:
high (weighted to dominate), then the gap high - low, then the slack
2 - same_rank. -/
def plateauMeasureAux (training_size : ℕ) (s : PlateauState) : ℕ :=
  3 * (2 * s.high * (training_size + 2) + (s.high - s.low)) + (2 - s.same_rank)

theorem plateauStep_dec (training_size prox : ℕ) (hprox : 1 ≤ prox)
    (scores : ℕ → ℚ) (s : PlateauState)
    (hlh : s.low ≤ s.high) (hht : s.high ≤ training_size) (hsr : s.same_rank ≤ 2)
    (hit : s.iterations ≠ 0) (hcond : s.high - s.low > prox)
    (hnb : plateauBreaks scores s = false) :
    (plateauStep training_size scores s).low ≤ (plateauStep training_size scores s).high ∧
    (plateauStep training_size scores s).high ≤ training_size ∧
    (plateauStep training_size scores s).same_rank ≤ 2 ∧
    (plateauStep training_size scores s).iterations ≠ 0 ∧
    plateauMeasureAux training_size (plateauStep training_size scores s) <
      plateauMeasureAux training_size s := by
  by_cases hsc : s.score_change = true
  · by_cases hkm : scores s.iterations = s.max_k_score
    · have hs2 : s.same_rank ≠ 2 := by
        intro h
        rw [plateauBreaks, hsc, hkm, h] at hnb
        simp at hnb
      simp [plateauStep, plateauMeasureAux, hsc, hkm]
      omega
    · simp [plateauStep, plateauMeasureAux, hsc, hkm]
      omega
  · have hsc' : s.score_change = false := by rwa [Bool.not_eq_true] at hsc
    by_cases hkm : scores s.iterations = s.max_k_score
    · simp [plateauStep, plateauMeasureAux, hsc', hit, hkm]
      have hmul : (2 * s.low + 4) * (training_size + 2) ≤
          (2 * s.high) * (training_size + 2) :=
        Nat.mul_le_mul_right _ (by omega)
      have hexp : (2 * s.low + 4) * (training_size + 2) =
          2 * s.low * (training_size + 2) + 4 * (training_size + 2) := by ring
      omega
    · simp [plateauStep, plateauMeasureAux, hsc', hit, hkm]
      omega

theorem plateauRun_terminates_aux (training_size prox : ℕ) (hprox : 1 ≤ prox)
    (scores : ℕ → ℚ) :
    ∀ n s, plateauMeasureAux training_size s ≤ n → s.low ≤ s.high →
      s.high ≤ training_size → s.same_rank ≤ 2 → s.iterations ≠ 0 →
      ∃ fuel, (plateauRun training_size prox scores fuel s).isSome = true := by
  intro n
  induction n using Nat.strong_induction_on with
  | _ n ih =>
    intro s hμ hlh hht hsr hit
    by_cases hcond : s.high - s.low > prox
    · by_cases hbr : plateauBreaks scores s = true
      · exact ⟨1, by rw [plateauRun, if_pos hcond, if_pos hbr]; rfl⟩
      · have hnb : plateauBreaks scores s = false := Bool.eq_false_iff.mpr hbr
        obtain ⟨h1, h2, h3, h4, h5⟩ :=
          plateauStep_dec training_size prox hprox scores s hlh hht hsr hit hcond hnb
        obtain ⟨fuel, hf⟩ := ih
          (plateauMeasureAux training_size (plateauStep training_size scores s))
          (by omega) _ (le_refl _) h1 h2 h3 h4
        exact ⟨fuel + 1, by rw [plateauRun, if_pos hcond, if_neg hbr]; exact hf⟩
    · exact ⟨1, by rw [plateauRun, if_neg hcond]; rfl⟩

/-- C8 amended: the while loop of investigate_sample_plateau_rank
terminates for every training size, every score sequence and every
positive proximity bound prox >= 1 (the loop body makes no progress on a
gap of 1, so prox = 0 admits the nonterminating run of the
counterexample). -/
theorem investigate_sample_plateau_rank_loop_terminates
    (training_size prox : ℕ) (hprox : 1 ≤ prox) (scores : ℕ → ℚ) :
    plateauTerminates training_size prox scores := by
  by_cases hcond :
      (plateauInit training_size).high - (plateauInit training_size).low > prox
  · have hnb : plateauBreaks scores (plateauInit training_size) = false := rfl
    have h1 : (plateauStep training_size scores (plateauInit training_size)).low ≤
          (plateauStep training_size scores (plateauInit training_size)).high ∧
        (plateauStep training_size scores (plateauInit training_size)).high ≤
          training_size ∧
        (plateauStep training_size scores (plateauInit training_size)).same_rank ≤ 2 ∧
        (plateauStep training_size scores (plateauInit training_size)).iterations ≠ 0 := by
      simp [plateauStep, plateauInit]
      omega
    obtain ⟨fuel, hf⟩ := plateauRun_terminates_aux training_size prox hprox scores
      (plateauMeasureAux training_size
        (plateauStep training_size scores (plateauInit training_size)))
      (plateauStep training_size scores (plateauInit training_size))
      (le_refl _) h1.1 h1.2.1 h1.2.2.1 h1.2.2.2
    exact ⟨fuel + 1, by
      rw [plateauRun, if_pos hcond, if_neg (by rw [hnb]; exact Bool.false_ne_true)]
      exact hf⟩
  · exact ⟨1, by rw [plateauRun, if_neg hcond]; rfl⟩

/-- C8 amended witness: termination at training size 5 with the default
proximity bound 3 and constant scores. -/
theorem investigate_sample_plateau_rank_loop_terminates_witness :
    1 ≤ 3 ∧ plateauTerminates 5 3 (fun _ => (0:ℚ)) :=
  ⟨by omega, investigate_sample_plateau_rank_loop_terminates 5 3 (by omega) _⟩

end VecRep
